import Mathlib

/-!
Verification of the SFC single-file-component compiler and runtime.

Shallow embedding of the transform pipeline (src/unnamed/part_004),
the transform cache (src/unnamed/part_001), the plugin route scanner and
decorator preprocessing (src/unnamed/part_002), and the browser runtime
(src/unnamed/part_003).  Strings are modelled as `List Char`; file-system
and external collaborators (sass compiler, custom-element registry,
Babel parse/print) are modelled as explicit parameters or abstract data.
-/

namespace SFC

/-! ## Character classes (ASCII, as used by the source regexes) -/

/-- Matches the regex class `[a-zA-Z_]` used by `PARAM_RE` and the
decorator regexes (src/unnamed/part_004 line 12, part_002 line 264). -/
def identStartC (c : Char) : Bool := c.isAlpha || c = '_'

/-- Matches the regex class `[a-zA-Z0-9_]` (`\w`). -/
def identC (c : Char) : Bool := c.isAlphanum || c = '_'

/-- JavaScript whitespace as used by `\s` and `String.trim` (common ASCII
subset relevant to the sources). -/
def isWS (c : Char) : Bool := c = ' ' || c = '\t' || c = '\n' || c = '\r'

/-- JS `String.prototype.trim` on both ends. -/
def trimChars (cs : List Char) : List Char :=
  ((cs.dropWhile isWS).reverse.dropWhile isWS).reverse

theorem identStartC_ident {c : Char} (h : identStartC c = true) : identC c = true := by
  simp [identStartC, identC, Char.isAlphanum] at *
  tauto

theorem length_dropWhile_le (p : α → Bool) : ∀ l : List α, (l.dropWhile p).length ≤ l.length := by
  intro l
  induction l with
  | nil => simp [List.dropWhile]
  | cons a t ih =>
    rw [List.dropWhile]
    cases p a
    · simp
    · simp
      omega

/-! ## C1 — route `paramNames` extraction

Embedding of the `:name` scan performed with
`PARAM_RE = /:([a-zA-Z_][a-zA-Z0-9_]*)/g` in src/unnamed/part_004
lines 47-55 and src/unnamed/part_002 lines 262-297: `routePath.match(PARAM_RE)`
returns every non-overlapping match left to right, then `.map(m => m.slice(1))`
drops the leading colon. -/

/-- All `:name` tokens of a path, left to right, duplicates kept.
Each match consumes a colon, one `[a-zA-Z_]` character and the maximal
run of `[a-zA-Z0-9_]` characters, exactly as the global regex does. -/
def extractParamNames : List Char → List (List Char)
  | [] => []
  | c :: cs =>
    if c = ':' then
      match cs with
      | [] => []
      | d :: t =>
        if identStartC d then
          (d :: t.takeWhile identC) :: extractParamNames (t.dropWhile identC)
        else
          extractParamNames (d :: t)
    else extractParamNames cs
termination_by l => l.length
decreasing_by
  · simp only [List.length_cons]
    have := length_dropWhile_le identC t
    omega
  · simp
  · simp

theorem extractParamNames_nil : extractParamNames [] = [] := by
  rw [extractParamNames.eq_def]

theorem extractParamNames_cons_ne {c : Char} {cs : List Char} (h : ¬ c = ':') :
    extractParamNames (c :: cs) = extractParamNames cs := by
  rw [extractParamNames.eq_def]
  simp [h]

theorem extractParamNames_colon_start {d : Char} {t : List Char} (h : identStartC d = true) :
    extractParamNames (':' :: d :: t) =
      (d :: t.takeWhile identC) :: extractParamNames (t.dropWhile identC) := by
  rw [extractParamNames.eq_def]
  simp [h]

theorem extractParamNames_colon_nostart {d : Char} {t : List Char} (h : identStartC d = false) :
    extractParamNames (':' :: d :: t) = extractParamNames (d :: t) := by
  rw [extractParamNames.eq_def]
  simp [h]

/-- A route path segment: either literal text or a `:name` parameter. -/
inductive Seg where
  | lit (s : List Char)
  | param (nm : List Char)
deriving DecidableEq, Repr

/-- Well-formedness of one segment: literal segments are non-empty and hold
neither a colon nor a slash; parameter names are identifiers. -/
def segOk : Seg → Prop
  | .lit s => s ≠ [] ∧ ∀ c ∈ s, c ≠ ':' ∧ c ≠ '/'
  | .param nm => ∃ d t, nm = d :: t ∧ identStartC d = true ∧ ∀ c ∈ t, identC c = true

instance : DecidablePred segOk := by
  intro sg
  cases sg with
  | lit s => exact inferInstanceAs (Decidable (_ ∧ _))
  | param nm =>
    cases nm with
    | nil =>
      refine .isFalse ?_
      rintro ⟨d, t, h, -, -⟩
      exact List.noConfusion h
    | cons d t =>
      refine decidable_of_iff (identStartC d = true ∧ ∀ c ∈ t, identC c = true) ?_
      constructor
      · rintro ⟨h1, h2⟩
        exact ⟨d, t, rfl, h1, h2⟩
      · rintro ⟨d', t', h, h1, h2⟩
        cases h
        exact ⟨h1, h2⟩

/-- Text of one segment as it appears in the path attribute. -/
def segChars : Seg → List Char
  | .lit s => s
  | .param nm => ':' :: nm

/-- Renders a segment list as the path string `/seg1/seg2/...`. -/
def renderPath (ss : List Seg) : List Char :=
  ss.foldr (fun sg acc => '/' :: segChars sg ++ acc) []

/-- The specification-level parameter list: the names of the `:name`
segments, in left-to-right segment order, duplicates kept. -/
def segParamNames (ss : List Seg) : List (List Char) :=
  ss.filterMap fun sg => match sg with
    | .param nm => some nm
    | .lit _ => none

theorem extractParamNames_no_colon {s u : List Char} (h : ∀ c ∈ s, c ≠ ':') :
    extractParamNames (s ++ u) = extractParamNames u := by
  induction s with
  | nil => rfl
  | cons c t ih =>
    have hc : c ≠ ':' := h c (List.mem_cons_self ..)
    rw [List.cons_append, extractParamNames_cons_ne hc]
    exact ih fun x hx => h x (List.mem_cons_of_mem _ hx)

theorem renderPath_head (ss : List Seg) :
    renderPath ss = [] ∨ ∃ t, renderPath ss = '/' :: t := by
  cases ss with
  | nil => exact Or.inl rfl
  | cons sg t => exact Or.inr ⟨segChars sg ++ renderPath t, rfl⟩

theorem identC_slash : identC '/' = false := by decide

theorem extractParamNames_render (ss : List Seg) (hok : ∀ sg ∈ ss, segOk sg) :
    extractParamNames (renderPath ss) = segParamNames ss := by
  induction ss with
  | nil => simp [renderPath, segParamNames, extractParamNames_nil]
  | cons sg rest ih =>
    have hrest : ∀ s ∈ rest, segOk s := fun s hs => hok s (List.mem_cons_of_mem _ hs)
    have hsg : segOk sg := hok sg (List.mem_cons_self ..)
    cases sg with
    | lit s =>
      obtain ⟨-, hcs⟩ := hsg
      have h1 : renderPath (.lit s :: rest) = '/' :: (s ++ renderPath rest) := rfl
      rw [h1, extractParamNames_cons_ne (by decide : ¬ '/' = ':'),
        extractParamNames_no_colon (fun c hc => (hcs c hc).1), ih hrest]
      simp [segParamNames]
    | param nm =>
      obtain ⟨d, t, hnm, hd, ht⟩ := hsg
      subst hnm
      have h1 : renderPath (.param (d :: t) :: rest) =
          '/' :: ':' :: d :: (t ++ renderPath rest) := rfl
      have hhead : ∀ c, (renderPath rest).head? = some c → identC c = false := by
        intro c hc
        rcases renderPath_head rest with h | ⟨u, h⟩
        · rw [h] at hc; exact absurd hc (by simp)
        · rw [h] at hc
          simp at hc
          rw [← hc]
          exact identC_slash
      have htw : (t ++ renderPath rest).takeWhile identC = t := by
        rw [List.takeWhile_append_of_pos ht]
        rcases renderPath_head rest with h | ⟨u, h⟩ <;> rw [h]
        · simp
        · rw [List.takeWhile_cons_of_neg (by simp [identC_slash])]
          simp
      have hdw : (t ++ renderPath rest).dropWhile identC = renderPath rest := by
        rw [List.dropWhile_append_of_pos ht]
        rcases renderPath_head rest with h | ⟨u, h⟩ <;> rw [h]
        · simp
        · rw [List.dropWhile_cons_of_neg (by simp [identC_slash])]
      rw [h1, extractParamNames_cons_ne (by decide : ¬ '/' = ':'),
        extractParamNames_colon_start hd, htw, hdw, ih hrest]
      simp [segParamNames]

/-- C1: for a route path made of well-formed segments, the derived
`paramNames` list has exactly one entry per `:name` segment, in
left-to-right order of the segments, duplicates not de-duplicated. -/
theorem C1_paramNames_per_segment (ss : List Seg) (hok : ∀ sg ∈ ss, segOk sg) :
    extractParamNames (renderPath ss) = segParamNames ss ∧
    (extractParamNames (renderPath ss)).length =
      (ss.filter fun sg => match sg with | .param _ => true | .lit _ => false).length := by
  refine ⟨extractParamNames_render ss hok, ?_⟩
  rw [extractParamNames_render ss hok]
  induction ss with
  | nil => rfl
  | cons sg rest ih =>
    have hrest : ∀ s ∈ rest, segOk s := fun s hs => hok s (List.mem_cons_of_mem _ hs)
    cases sg with
    | lit s => simpa [segParamNames, List.filter] using ih hrest
    | param nm => simpa [segParamNames, List.filter] using ih hrest

/-- Witness for C1: the path `/:id/shop/:id` yields exactly the two entries
`id`, `id` in order (duplicates kept). -/
theorem C1_paramNames_per_segment_witness :
    extractParamNames (renderPath
        [.param ['i', 'd'], .lit ['s', 'h', 'o', 'p'], .param ['i', 'd']]) =
      [['i', 'd'], ['i', 'd']] := by
  have h := C1_paramNames_per_segment
    [.param ['i', 'd'], .lit ['s', 'h', 'o', 'p'], .param ['i', 'd']]
    (by decide)
  rw [h.1]
  rfl

/-! ## Association maps

Model of JavaScript `Map` objects and plain objects used as string maps:
`mapSet` replaces in place or appends, `mapGet` looks up, `mapDelete`
removes the entry for a key.  Reachable states keep keys unique, so the
list length equals `Map.size`. -/

/-- Insert or overwrite, keeping the position of an existing key. -/
def mapSet [DecidableEq κ] (m : List (κ × α)) (k : κ) (v : α) : List (κ × α) :=
  match m with
  | [] => [(k, v)]
  | (k', v') :: t => if k' = k then (k, v) :: t else (k', v') :: mapSet t k v

/-- Lookup of the first entry with the given key. -/
def mapGet [DecidableEq κ] (m : List (κ × α)) (k : κ) : Option α :=
  match m with
  | [] => none
  | (k', v') :: t => if k' = k then some v' else mapGet t k

/-- Remove the first entry with the given key. -/
def mapDelete [DecidableEq κ] (m : List (κ × α)) (k : κ) : List (κ × α) :=
  match m with
  | [] => []
  | (k', v') :: t => if k' = k then t else (k', v') :: mapDelete t k

theorem mapGet_mapSet_self [DecidableEq κ] (m : List (κ × α)) (k : κ) (v : α) :
    mapGet (mapSet m k v) k = some v := by
  induction m with
  | nil => simp [mapSet, mapGet]
  | cons p t ih =>
    obtain ⟨k', v'⟩ := p
    by_cases h : k' = k <;> simp [mapSet, mapGet, h, ih]

theorem mapGet_mapSet_ne [DecidableEq κ] (m : List (κ × α)) (k k' : κ) (v : α)
    (h : k' ≠ k) : mapGet (mapSet m k v) k' = mapGet m k' := by
  have h2 : k ≠ k' := Ne.symm h
  induction m with
  | nil => simp [mapSet, mapGet, h2]
  | cons p t ih =>
    obtain ⟨k0, v0⟩ := p
    by_cases h0 : k0 = k
    · subst h0
      simp [mapSet, mapGet, h2]
    · simp only [mapSet, if_neg h0, mapGet]
      by_cases h1 : k0 = k' <;> simp [h1, ih]

theorem mapDelete_sublist [DecidableEq κ] (m : List (κ × α)) (k : κ) :
    (mapDelete m k).Sublist m := by
  induction m with
  | nil => simp [mapDelete]
  | cons p t ih =>
    obtain ⟨k', v'⟩ := p
    by_cases h : k' = k
    · simp [mapDelete, h]
    · simpa [mapDelete, h] using ih.cons₂ (k', v')

theorem keys_mapDelete [DecidableEq κ] (m : List (κ × α)) (k : κ)
    (hnd : (m.map Prod.fst).Nodup) :
    ∀ k', k' ∈ (mapDelete m k).map Prod.fst ↔ (k' ∈ m.map Prod.fst ∧ k' ≠ k) := by
  induction m with
  | nil => simp [mapDelete]
  | cons p t ih =>
    obtain ⟨k0, v0⟩ := p
    simp only [List.map_cons, List.nodup_cons] at hnd
    intro k'
    by_cases h : k0 = k
    · subst h
      simp only [mapDelete, if_pos rfl, List.map_cons, List.mem_cons]
      constructor
      · intro hm
        refine ⟨Or.inr hm, ?_⟩
        rintro rfl
        exact hnd.1 hm
      · rintro ⟨hm | hm, hne⟩
        · exact absurd hm hne
        · exact hm
    · simp only [mapDelete, if_neg h, List.map_cons, List.mem_cons, ih hnd.2 k']
      constructor
      · rintro (rfl | ⟨hm, hne⟩)
        · exact ⟨Or.inl rfl, h⟩
        · exact ⟨Or.inr hm, hne⟩
      · rintro ⟨rfl | hm, hne⟩
        · exact Or.inl rfl
        · exact Or.inr ⟨hm, hne⟩

theorem mapGet_eq_none_of_not_mem [DecidableEq κ] (m : List (κ × α)) (k : κ)
    (hk : k ∉ m.map Prod.fst) : mapGet m k = none := by
  induction m with
  | nil => rfl
  | cons p t ih =>
    obtain ⟨k', v'⟩ := p
    simp only [List.map_cons, List.mem_cons, not_or] at hk
    simp [mapGet, Ne.symm hk.1, ih hk.2]

theorem mapGet_mapDelete_self [DecidableEq κ] (m : List (κ × α)) (k : κ)
    (hnd : (m.map Prod.fst).Nodup) : mapGet (mapDelete m k) k = none := by
  refine mapGet_eq_none_of_not_mem _ _ fun hmem => ?_
  exact ((keys_mapDelete m k hnd k).1 hmem).2 rfl

theorem keys_mapSet [DecidableEq κ] (m : List (κ × α)) (k : κ) (v : α) :
    (mapSet m k v).map Prod.fst = if k ∈ m.map Prod.fst then m.map Prod.fst
      else m.map Prod.fst ++ [k] := by
  induction m with
  | nil => simp [mapSet]
  | cons p t ih =>
    obtain ⟨k0, v0⟩ := p
    by_cases h : k0 = k
    · subst h
      simp [mapSet]
    · simp only [mapSet, if_neg h, List.map_cons, ih]
      by_cases hm : k ∈ t.map Prod.fst
      · simp [hm, Ne.symm h]
      · simp [hm, Ne.symm h]

theorem length_mapSet_le [DecidableEq κ] (m : List (κ × α)) (k : κ) (v : α) :
    (mapSet m k v).length ≤ m.length + 1 := by
  induction m with
  | nil => simp [mapSet]
  | cons p t ih =>
    obtain ⟨k0, v0⟩ := p
    by_cases h : k0 = k
    · simp [mapSet, h]
    · simp only [mapSet, if_neg h, List.length_cons]
      omega

/-! ## C2, C3, C10 — the TransformCache (src/unnamed/part_001)

The file system is a parameter: `stat` returns the current modification
time (`none` models a thrown `statSync`), `read` returns the file content
(`none` models a thrown `readFileSync`).  The md5 content hash is a
parameter `hashFn`.  Cache payloads are an abstract type `δ` (the
generated module: code, map, template, css). -/

/-- File-system snapshot seen by the cache. -/
structure FsModel where
  stat : String → Option Int
  read : String → Option String

/-- One cache entry: content hash, recorded mtime, payload
(fields `hash`, `mtime` and the spread `...data` of part_001 lines 9-17). -/
structure CEntry (δ : Type) where
  hash : String
  mtime : Int
  data : δ
deriving DecidableEq, Repr

/-- Mutable state of a `TransformCache` (part_001 lines 26-31): the entry
map, the LRU access-order list, the configured ceiling, the dirty flag. -/
structure TCState (δ : Type) where
  cache : List (String × CEntry δ)
  accessOrder : List String
  maxEntries : Nat
  dirty : Bool
deriving DecidableEq, Repr

/-- Eviction loop of `set` (part_001 lines 115-118):
`while (size >= maxEntries && accessOrder.length > 0) delete(shift())`. -/
def evictLoop (max : Nat) : List (String × CEntry δ) → List String →
    List (String × CEntry δ) × List String
  | m, [] => (m, [])
  | m, o :: t => if max ≤ m.length then evictLoop max (mapDelete m o) t else (m, o :: t)

/-- `TransformCache.get` (part_001 lines 80-101): missing entry or a failed
stat returns null; an mtime mismatch deletes the entry (access order is not
touched); a hit moves the id to the back of the access order and returns
the entry unchanged. -/
def cacheGet (tc : TCState δ) (id filePath : String) (fs : FsModel) :
    Option (CEntry δ) × TCState δ :=
  match mapGet tc.cache id with
  | none => (none, tc)
  | some e =>
    match fs.stat filePath with
    | none => (none, tc)
    | some m =>
      if m = e.mtime then
        (some e, { tc with accessOrder := tc.accessOrder.erase id ++ [id] })
      else
        (none, { tc with cache := mapDelete tc.cache id })

/-- `TransformCache.set` (part_001 lines 103-126): stat and read first (any
failure aborts with the state untouched), then evict while at capacity,
then insert and push the id onto the access order (without removing a
previous occurrence) and mark dirty. -/
def cacheSet (hashFn : String → String) (tc : TCState δ) (id filePath : String)
    (d : δ) (fs : FsModel) : TCState δ :=
  match fs.stat filePath, fs.read filePath with
  | some m, some content =>
    let e : CEntry δ := ⟨hashFn content, m, d⟩
    let r := evictLoop tc.maxEntries tc.cache tc.accessOrder
    { tc with cache := mapSet r.1 id e, accessOrder := r.2 ++ [id], dirty := true }
  | some _, none => tc
  | none, _ => tc

/-- Key sanity of reachable cache states: entry keys are unique (JS `Map`)
and every cached key occurs in the access-order list. -/
def KeysOk (m : List (String × CEntry δ)) (ao : List String) : Prop :=
  (m.map Prod.fst).Nodup ∧ ∀ k ∈ m.map Prod.fst, k ∈ ao

theorem keysOk_mapDelete {m : List (String × CEntry δ)} {ao : List String} {o : String}
    (h : KeysOk m (o :: ao)) : KeysOk (mapDelete m o) ao := by
  obtain ⟨hnd, hmem⟩ := h
  refine ⟨((mapDelete_sublist m o).map Prod.fst).nodup hnd, fun k hk => ?_⟩
  obtain ⟨hk1, hk2⟩ := (keys_mapDelete m o hnd k).1 hk
  rcases List.mem_cons.1 (hmem k hk1) with h | h
  · exact absurd h hk2
  · exact h

theorem evictLoop_inv (max : Nat) :
    ∀ (ao : List String) (m : List (String × CEntry δ)), KeysOk m ao →
      KeysOk (evictLoop max m ao).1 (evictLoop max m ao).2 ∧
      (1 ≤ max → (evictLoop max m ao).1.length < max) := by
  intro ao
  induction ao with
  | nil =>
    intro m hok
    have hnil : m = [] := by
      rcases m with _ | ⟨p, t⟩
      · rfl
      · exact absurd (hok.2 p.1 (by simp)) (by simp)
    subst hnil
    exact ⟨hok, fun h => by simpa [evictLoop] using h⟩
  | cons o t ih =>
    intro m hok
    by_cases h : max ≤ m.length
    · have hstep : evictLoop max m (o :: t) = evictLoop max (mapDelete m o) t := by
        simp [evictLoop, h]
      rw [hstep]
      exact ih (mapDelete m o) (keysOk_mapDelete hok)
    · have hstep : evictLoop max m (o :: t) = (m, o :: t) := by
        simp [evictLoop, h]
      rw [hstep]
      exact ⟨hok, fun _ => Nat.lt_of_not_le h⟩

theorem evictLoop_noop (max : Nat) (ao : List String) (m : List (String × CEntry δ))
    (h : m.length < max) : evictLoop max m ao = (m, ao) := by
  cases ao with
  | nil => rfl
  | cons o t => simp [evictLoop, Nat.not_le.mpr h]

/-- C10: `TransformCache.set` is atomic with respect to file-system errors:
if statting or reading the file fails, the whole cache state — entry map,
access order, ceiling and dirty flag — is returned unchanged (the `try`
wraps the mutations, which all occur after both calls), and `set` itself
never propagates the failure (it is a total function of the state). -/
theorem C10_set_atomic_on_fs_error (hashFn : String → String) (tc : TCState δ)
    (id filePath : String) (d : δ) (fs : FsModel)
    (h : fs.stat filePath = none ∨ fs.read filePath = none) :
    cacheSet hashFn tc id filePath d fs = tc := by
  rcases h with h | h
  · simp [cacheSet, h]
  · cases hstat : fs.stat filePath <;> simp [cacheSet, hstat, h]

/-- Witness for C10: a file system whose stat always fails leaves a
concrete one-entry cache untouched. -/
theorem C10_set_atomic_on_fs_error_witness :
    cacheSet (fun s => s) ⟨[("a", ⟨"h", 1, "code"⟩)], ["a"], 5, false⟩ "b" "f" "d"
      ⟨fun _ => none, fun _ => some "src"⟩ =
      ⟨[("a", ⟨"h", 1, "code"⟩)], ["a"], 5, false⟩ :=
  C10_set_atomic_on_fs_error (fun s => s) _ "b" "f" "d" _ (Or.inl rfl)

/-- C2: the mtime-validation contract of the cache.
Part 1: after a successful `set`, a `get` performed while the file's
current mtime still equals the recorded one returns the stored entry
unchanged (same hash, mtime and payload — hence byte-identical generated
code on a repeat compile).  Part 2: whenever the current mtime differs
from the recorded one, `get` evicts the entry and returns null.
Part 3: `get` never returns an entry whose recorded mtime differs from
the file's current mtime. -/
theorem C2_cache_mtime_validation {δ : Type} (hashFn : String → String) :
    (∀ (tc : TCState δ) (id p : String) (d : δ) (fs fs2 : FsModel) (mt : Int) (ct : String),
        fs.stat p = some mt → fs.read p = some ct → fs2.stat p = some mt →
        (cacheGet (cacheSet hashFn tc id p d fs) id p fs2).1 = some ⟨hashFn ct, mt, d⟩) ∧
    (∀ (tc : TCState δ) (id p : String) (fs : FsModel) (e : CEntry δ) (mt : Int),
        (tc.cache.map Prod.fst).Nodup →
        mapGet tc.cache id = some e → fs.stat p = some mt → mt ≠ e.mtime →
        (cacheGet tc id p fs).1 = none ∧
        mapGet (cacheGet tc id p fs).2.cache id = none) ∧
    (∀ (tc : TCState δ) (id p : String) (fs : FsModel) (e : CEntry δ),
        (cacheGet tc id p fs).1 = some e → fs.stat p = some e.mtime) := by
  refine ⟨?_, ?_, ?_⟩
  · intro tc id p d fs fs2 mt ct hstat hread hstat2
    simp only [cacheSet, hstat, hread]
    simp [cacheGet, mapGet_mapSet_self, hstat2]
  · intro tc id p fs e mt hnd hget hstat hne
    simp [cacheGet, hget, hstat, hne, mapGet_mapDelete_self _ _ hnd]
  · intro tc id p fs e hsome
    rcases hget : mapGet tc.cache id with _ | e'
    · simp [cacheGet, hget] at hsome
    · rcases hstat : fs.stat p with _ | m
      · simp [cacheGet, hget, hstat] at hsome
      · by_cases hm : m = e'.mtime
        · have he : e' = e := by
            have h0 := hsome
            simp [cacheGet, hget, hstat, hm] at h0
            exact h0
          rw [hm, he]
        · simp [cacheGet, hget, hstat, hm] at hsome

/-- Witness for C2: a concrete set-then-get round trip hits and returns the
stored entry; bumping the mtime from 10 to 11 makes get evict and return
null. -/
theorem C2_cache_mtime_validation_witness :
    (cacheGet (cacheSet (fun s => s) (⟨[], [], 5, false⟩ : TCState String)
        "a" "f" "code" ⟨fun _ => some 10, fun _ => some "src"⟩)
      "a" "f" ⟨fun _ => some 10, fun _ => some "src"⟩).1 = some ⟨"src", 10, "code"⟩ ∧
    ((cacheGet (⟨[("a", ⟨"src", 10, "code"⟩)], ["a"], 5, true⟩ : TCState String)
        "a" "f" ⟨fun _ => some 11, fun _ => some "src2"⟩).1 = none ∧
      mapGet (cacheGet (⟨[("a", ⟨"src", 10, "code"⟩)], ["a"], 5, true⟩ : TCState String)
        "a" "f" ⟨fun _ => some 11, fun _ => some "src2"⟩).2.cache "a" = none) := by
  obtain ⟨h1, h2, h3⟩ := C2_cache_mtime_validation (δ := String) (fun s => s)
  exact ⟨h1 ⟨[], [], 5, false⟩ "a" "f" "code" _ _ 10 "src" rfl rfl rfl,
    h2 ⟨[("a", ⟨"src", 10, "code"⟩)], ["a"], 5, true⟩ "a" "f" _ ⟨"src", 10, "code"⟩ 11
      (by simp) rfl rfl (by decide)⟩

/-- C3 (amended): `set` evicts from the front of the access-order list
whenever the pre-insertion entry count has reached `maxEntries` — also on
an overwrite whose final count would not exceed the ceiling — and because
`set` appends to the access order without removing earlier occurrences,
the evicted entry need not be the least-recently-used one.  What does
hold: starting from a state with unique keys all listed in the access
order and `maxEntries ≥ 1`, a successful `set` leaves at most `maxEntries`
entries and preserves that sanity invariant; no other entry is touched
when the cache is below capacity; and a `get` hit moves the id to the
back of the access order. -/
theorem C3_eviction_bounds {δ : Type} (hashFn : String → String) (tc : TCState δ)
    (id p : String) (d : δ) (fs : FsModel) (mt : Int) (ct : String)
    (hok : KeysOk tc.cache tc.accessOrder) (hmax : 1 ≤ tc.maxEntries)
    (hstat : fs.stat p = some mt) (hread : fs.read p = some ct) :
    (cacheSet hashFn tc id p d fs).cache.length ≤ tc.maxEntries ∧
    KeysOk (cacheSet hashFn tc id p d fs).cache (cacheSet hashFn tc id p d fs).accessOrder ∧
    (tc.cache.length < tc.maxEntries → ∀ k, k ≠ id →
      mapGet (cacheSet hashFn tc id p d fs).cache k = mapGet tc.cache k) ∧
    (∀ (e : CEntry δ), mapGet tc.cache id = some e → fs.stat p = some e.mtime →
      (cacheGet tc id p fs).2.accessOrder = tc.accessOrder.erase id ++ [id]) := by
  have hset : cacheSet hashFn tc id p d fs =
      { tc with
          cache := mapSet (evictLoop tc.maxEntries tc.cache tc.accessOrder).1 id
            ⟨hashFn ct, mt, d⟩,
          accessOrder := (evictLoop tc.maxEntries tc.cache tc.accessOrder).2 ++ [id],
          dirty := true } := by
    simp [cacheSet, hstat, hread]
  obtain ⟨hok', hlen⟩ := evictLoop_inv tc.maxEntries tc.accessOrder tc.cache hok
  refine ⟨?_, ?_, ?_, ?_⟩
  · rw [hset]
    have h1 := length_mapSet_le (evictLoop tc.maxEntries tc.cache tc.accessOrder).1 id
      (⟨hashFn ct, mt, d⟩ : CEntry δ)
    have h2 := hlen hmax
    simp only
    omega
  · rw [hset]
    simp only
    constructor
    · rw [keys_mapSet]
      by_cases hmem : id ∈ (evictLoop tc.maxEntries tc.cache tc.accessOrder).1.map Prod.fst
      · simp [hmem, hok'.1]
      · simp [hmem, List.nodup_append, hok'.1]
    · intro k hk
      rw [keys_mapSet] at hk
      by_cases hmem : id ∈ (evictLoop tc.maxEntries tc.cache tc.accessOrder).1.map Prod.fst
      · rw [if_pos hmem] at hk
        exact List.mem_append_left _ (hok'.2 k hk)
      · rw [if_neg hmem] at hk
        rcases List.mem_append.1 hk with h | h
        · exact List.mem_append_left _ (hok'.2 k h)
        · simp at h
          subst h
          simp
  · intro hlt k hkne
    rw [hset]
    simp only
    rw [evictLoop_noop _ _ _ hlt]
    exact mapGet_mapSet_ne _ _ _ _ hkne
  · intro e hget hstat'
    simp [cacheGet, hget, hstat']

/-- Witness for C3's amended statement: a concrete below-capacity set
leaves the other entry alone and keeps the count at the ceiling. -/
theorem C3_eviction_bounds_witness :
    (cacheSet (fun s => s) (⟨[("a", ⟨"h", 1, "x"⟩)], ["a"], 2, false⟩ : TCState String)
        "b" "f" "y" ⟨fun _ => some 3, fun _ => some "src"⟩).cache.length ≤ 2 ∧
    mapGet (cacheSet (fun s => s)
        (⟨[("a", ⟨"h", 1, "x"⟩)], ["a"], 2, false⟩ : TCState String)
        "b" "f" "y" ⟨fun _ => some 3, fun _ => some "src"⟩).cache "a" =
      some ⟨"h", 1, "x"⟩ := by
  obtain ⟨h1, -, h3, -⟩ := C3_eviction_bounds (δ := String) (fun s => s)
    ⟨[("a", ⟨"h", 1, "x"⟩)], ["a"], 2, false⟩ "b" "f" "y"
    ⟨fun _ => some 3, fun _ => some "src"⟩ 3 "src"
    ⟨by simp, by simp⟩ (by decide) rfl rfl
  exact ⟨h1, by rw [h3 (by decide) "a" (by decide)]; rfl⟩

/-- Counterexample for C3 as stated.  First trace (ceiling 2): filling with
`a`, `b` and then re-setting the existing id `b` evicts `a` although the
count would not have exceeded the ceiling — contradicting eviction
happening "only when the entry count would exceed maxEntries".  Second
trace (ceiling 3): `set a, set b, set a, set c, set d` evicts `a` — whose
recency was refreshed by the third operation — while the genuinely
least-recently-used `b` survives, because set pushed a duplicate of `a`
onto the access order. -/
theorem C3_counterexample :
    (let fs : FsModel := ⟨fun _ => some 1, fun _ => some "s"⟩
     let st : TCState Unit → String → TCState Unit :=
       fun tc k => cacheSet (fun s => s) tc k "f" () fs
     let u := st (st (⟨[], [], 2, false⟩ : TCState Unit) "a") "b"
     mapGet u.cache "a" = some ⟨"s", 1, ()⟩ ∧ u.cache.length = 2 ∧
       mapGet (st u "b").cache "a" = none) ∧
    (let fs : FsModel := ⟨fun _ => some 1, fun _ => some "s"⟩
     let st : TCState Unit → String → TCState Unit :=
       fun tc k => cacheSet (fun s => s) tc k "f" () fs
     let v := st (st (st (st (st (⟨[], [], 3, false⟩ : TCState Unit) "a") "b") "a") "c") "d"
     mapGet v.cache "a" = none ∧ (mapGet v.cache "b").isSome = true) := by
  constructor
  · exact ⟨rfl, rfl, rfl⟩
  · exact ⟨rfl, rfl⟩

/-! ## C9 — `parseRouteParams` (src/unnamed/part_003 lines 26-37)

The function replaces every `:name` token of the path pattern by the
regex group `([^/]+)`, anchors the pattern, matches the current path and
assigns `params[name] = match[i + 1]` for each `paramNames[i]`.  The
generated regex is modelled as a chunk sequence — literal characters and
non-empty non-slash capture holes — matched with the greedy backtracking
order of the JavaScript engine. -/

/-- One piece of the generated route regex. -/
inductive Chunk where
  | lit (c : Char)
  | hole
deriving DecidableEq, Repr

/-- Worker for `chunksOf`: the flag records whether the scan is inside the
`[a-zA-Z0-9_]*` tail of a `:name` token, whose characters are part of the
hole and emit nothing. -/
def chunksGo : Bool → List Char → List Chunk
  | _, [] => []
  | inRun, c :: cs =>
    if inRun && identC c then chunksGo true cs
    else if c = ':' then
      match cs with
      | [] => [.lit ':']
      | d :: _ =>
        if identStartC d then .hole :: chunksGo true cs
        else .lit ':' :: chunksGo false cs
    else .lit c :: chunksGo false cs

/-- Chunk sequence of `pathPattern.replace(/:([a-zA-Z_][a-zA-Z0-9_]*)/g, ...)`:
each `:name` token becomes one capture hole, all other characters stay
literal. -/
def chunksOf (cs : List Char) : List Chunk := chunksGo false cs

/-- Anchored match of a chunk sequence against a path.  A hole captures a
non-empty run of non-slash characters; candidate lengths are tried
longest-first, mirroring the greedy `([^/]+)` groups with backtracking.
Returns the list of captured strings on success. -/
def matchChunks : List Chunk → List Char → Option (List (List Char))
  | [], [] => some []
  | [], _ :: _ => none
  | .lit _ :: _, [] => none
  | .lit a :: rest, c :: cs => if a = c then matchChunks rest cs else none
  | .hole :: rest, cs =>
    let avail := (cs.takeWhile (fun c => ¬ c = '/')).length
    (List.range avail).findSome? fun i =>
      let k := avail - i
      (matchChunks rest (cs.drop k)).map fun caps => cs.take k :: caps

/-- Builds a JS object by assigning the listed key/value pairs in order
(later assignments to the same key overwrite). -/
def assocOfPairs [DecidableEq κ] (l : List (κ × α)) (m0 : List (κ × α)) : List (κ × α) :=
  l.foldl (fun m q => mapSet m q.1 q.2) m0

/-- `parseRouteParams`: on a failed match the params object stays empty;
on a match, `params[paramNames[i]] = match[i + 1]` for every i (a missing
capture is JavaScript `undefined`, modelled as `none`). -/
def parseRouteParams (pattern cur : List Char) (names : List (List Char)) :
    List (List Char × Option (List Char)) :=
  match matchChunks (chunksOf pattern) cur with
  | none => []
  | some caps => assocOfPairs (names.enum.map fun p => (p.2, caps.get? p.1)) []

theorem mapGet_assocOfPairs_not_mem [DecidableEq κ] (l : List (κ × α)) (m0 : List (κ × α))
    (k : κ) (hk : k ∉ l.map Prod.fst) :
    mapGet (assocOfPairs l m0) k = mapGet m0 k := by
  induction l generalizing m0 with
  | nil => rfl
  | cons q t ih =>
    simp only [List.map_cons, List.mem_cons, not_or] at hk
    rw [assocOfPairs, List.foldl_cons, ← assocOfPairs, ih _ hk.2,
      mapGet_mapSet_ne _ _ _ _ hk.1]

theorem mapGet_assocOfPairs_mem [DecidableEq κ] (l : List (κ × α)) (m0 : List (κ × α))
    (hnd : (l.map Prod.fst).Nodup) :
    ∀ q ∈ l, mapGet (assocOfPairs l m0) q.1 = some q.2 := by
  induction l generalizing m0 with
  | nil => intro q hq; exact absurd hq (by simp)
  | cons p t ih =>
    simp only [List.map_cons, List.nodup_cons] at hnd
    intro q hq
    rcases List.mem_cons.1 hq with rfl | hq'
    · rw [assocOfPairs, List.foldl_cons, ← assocOfPairs,
        mapGet_assocOfPairs_not_mem _ _ _ hnd.1, mapGet_mapSet_self]
    · exact ih (mapSet m0 p.1 p.2) hnd.2 q hq'

theorem mapGet_assocOfPairs_isSome [DecidableEq κ] (l : List (κ × α)) (m0 : List (κ × α))
    (k : κ) :
    (mapGet (assocOfPairs l m0) k).isSome = true ↔
      k ∈ l.map Prod.fst ∨ (mapGet m0 k).isSome = true := by
  induction l generalizing m0 with
  | nil => simp [assocOfPairs]
  | cons q t ih =>
    rw [assocOfPairs, List.foldl_cons, ← assocOfPairs, ih]
    by_cases h : k = q.1
    · subst h
      simp [mapGet_mapSet_self]
    · rw [mapGet_mapSet_ne _ _ _ _ h]
      simp [List.mem_cons, h]

/-- C9: the `parseRouteParams` contract.  If the current path does not
match the anchored pattern obtained by turning each `:name` token into a
non-empty non-slash wildcard, the result is the empty object.  If it
matches with captures `caps`, then a key is present exactly when it
occurs in `paramNames`, and — when `paramNames` has no duplicates — the
entry for `paramNames[i]` is the capture at position i. -/
theorem C9_parseRouteParams_contract (pattern cur : List Char)
    (names : List (List Char)) :
    (matchChunks (chunksOf pattern) cur = none → parseRouteParams pattern cur names = []) ∧
    (∀ caps, matchChunks (chunksOf pattern) cur = some caps →
      (∀ nm, (mapGet (parseRouteParams pattern cur names) nm).isSome = true ↔ nm ∈ names) ∧
      (names.Nodup → ∀ i (h : i < names.length),
        mapGet (parseRouteParams pattern cur names) (names.get ⟨i, h⟩) =
          some (caps.get? i))) := by
  constructor
  · intro h
    simp [parseRouteParams, h]
  · intro caps hm
    have hform : parseRouteParams pattern cur names =
        assocOfPairs (names.enum.map fun p => (p.2, caps.get? p.1)) [] := by
      simp [parseRouteParams, hm]
    have hkeys : (names.enum.map fun p => (p.2, caps.get? p.1)).map Prod.fst = names := by
      rw [List.map_map]
      have : (Prod.fst ∘ fun p : Nat × List Char => (p.2, caps.get? p.1)) = Prod.snd := by
        funext p
        rfl
      rw [this, List.enum_map_snd]
    constructor
    · intro nm
      rw [hform, mapGet_assocOfPairs_isSome, hkeys]
      simp [mapGet]
    · intro hnd i h
      rw [hform]
      have hq : ((names.get ⟨i, h⟩ : List Char), caps.get? i) ∈
          names.enum.map fun p => (p.2, caps.get? p.1) := by
        refine List.mem_map.2 ⟨(i, names.get ⟨i, h⟩), ?_, rfl⟩
        rw [List.mem_iff_get]
        refine ⟨⟨i, by simpa using h⟩, ?_⟩
        simp [List.getElem_enum]
      exact mapGet_assocOfPairs_mem _ _ (by rw [hkeys]; exact hnd) _ hq

/-- Witness for C9: pattern `/users/:id/p/:n` against `/users/42/p/7`
captures 42 and 7 in order; against the non-matching `/users` the result
is empty. -/
theorem C9_parseRouteParams_contract_witness :
    parseRouteParams "/users/:id/p/:n".toList "/users".toList [['i', 'd'], ['n']] = [] ∧
    mapGet (parseRouteParams "/users/:id/p/:n".toList "/users/42/p/7".toList
        [['i', 'd'], ['n']]) ['i', 'd'] = some (some ['4', '2']) ∧
    mapGet (parseRouteParams "/users/:id/p/:n".toList "/users/42/p/7".toList
        [['i', 'd'], ['n']]) ['n'] = some (some ['7']) := by
  have h1 := (C9_parseRouteParams_contract "/users/:id/p/:n".toList "/users".toList
    [['i', 'd'], ['n']]).1 (by decide)
  have h2 := (C9_parseRouteParams_contract "/users/:id/p/:n".toList "/users/42/p/7".toList
    [['i', 'd'], ['n']]).2 [['4', '2'], ['7']] (by decide)
  refine ⟨h1, ?_, ?_⟩
  · have := h2.2 (by decide) 0 (by decide)
    simpa using this
  · have := h2.2 (by decide) 1 (by decide)
    simpa using this

/-! ## C4, C5 — the style stage of `transformSFC` (src/unnamed/part_004)

Lines 166-214: the source (with the first template and script regions
removed) is scanned with `STYLE_GLOBAL_RE = /<style([^>]*)>([\s\S]*?)<\/style>/gi`;
per region the `lang` and `global` attributes are read, SCSS is compiled
through the pluggable `sass.compileString` (modelled as a `compile`
parameter), a compile failure falls back to the raw text and appends a
warning comment to the generated module, and the region's css joins the
scoped or the global bucket.  Buckets join with a newline; an empty
bucket yields null. -/

/-- Case-insensitive prefix test (both sides lowered, ASCII). -/
def ciStartsL : List Char → List Char → Bool
  | [], _ => true
  | _ :: _, [] => false
  | p :: ps, c :: cs => (c.toLower = p.toLower) && ciStartsL ps cs

theorem ciStartsL_length {p cs : List Char} (h : ciStartsL p cs = true) :
    p.length ≤ cs.length := by
  induction p generalizing cs with
  | nil => simp
  | cons a ps ih =>
    cases cs with
    | nil => simp [ciStartsL] at h
    | cons c t =>
      simp only [ciStartsL, Bool.and_eq_true] at h
      have := ih h.2
      simp only [List.length_cons]
      omega

/-- First case-insensitive occurrence of `pat`: returns the characters
before the occurrence and the characters after it. -/
def findCI (pat : List Char) : List Char → Option (List Char × List Char)
  | [] => none
  | c :: t =>
    if ciStartsL pat (c :: t) then some ([], (c :: t).drop pat.length)
    else (findCI pat t).map fun r => (c :: r.1, r.2)

theorem findCI_after_lt (pat : List Char) (hp : pat ≠ []) :
    ∀ cs b a, findCI pat cs = some (b, a) → a.length < cs.length := by
  intro cs
  induction cs with
  | nil => intro b a h; exact absurd h (by simp [findCI])
  | cons c t ih =>
    intro b a h
    by_cases hc : ciStartsL pat (c :: t) = true
    · simp only [findCI, if_pos hc, Option.some.injEq, Prod.mk.injEq] at h
      obtain ⟨-, rfl⟩ := h
      have h1 : 1 ≤ pat.length := by
        cases pat
        · exact absurd rfl hp
        · simp
      simp only [List.length_drop, List.length_cons]
      omega
    · simp only [findCI, if_neg hc] at h
      rcases hr : findCI pat t with _ | ⟨b', a'⟩
      · rw [hr] at h
        exact absurd h (by simp)
      · rw [hr] at h
        simp only [Option.map_some', Option.some.injEq, Prod.mk.injEq] at h
        obtain ⟨-, rfl⟩ := h
        have := ih b' a' hr
        simp only [List.length_cons]
        omega

/-- A single attempt of `/<TAG([^>]*)>([\s\S]*?)<\/TAG>/i` anchored at the
start of `cs`: the attribute text runs to the first `>`, the content runs
lazily to the first case-insensitive close tag.  Returns
(attrs, content, suffix after the close tag). -/
def tryTagAt (tag : List Char) (cs : List Char) :
    Option (List Char × List Char × List Char) :=
  if ciStartsL ('<' :: tag) cs then
    let rest := cs.drop (tag.length + 1)
    let attrs := rest.takeWhile fun c => ¬ c = '>'
    match rest.dropWhile (fun c => ¬ c = '>') with
    | [] => none
    | _ :: afterGt =>
      match findCI ('<' :: '/' :: tag ++ ['>']) afterGt with
      | none => none
      | some r => some (attrs, r.1, r.2)
  else none

theorem tryTagAt_suffix_lt {tag cs a co su : List Char}
    (h : tryTagAt tag cs = some (a, co, su)) : su.length < cs.length := by
  simp only [tryTagAt] at h
  split at h
  · rename_i hc
    have hlen : tag.length + 1 ≤ cs.length := by
      have := ciStartsL_length hc
      simpa using this
    split at h
    · exact absurd h (by simp)
    · rename_i g afterGt hdw
      split at h
      · exact absurd h (by simp)
      · rename_i r hf
        simp only [Option.some.injEq, Prod.mk.injEq] at h
        obtain ⟨-, -, rfl⟩ := h
        have h1 := findCI_after_lt ('<' :: '/' :: tag ++ ['>']) (by simp) afterGt r.1 r.2 hf
        have h2 : (g :: afterGt).length ≤ (cs.drop (tag.length + 1)).length := by
          rw [← hdw]
          exact length_dropWhile_le _ _
        simp only [List.length_cons, List.length_drop] at h1 h2 ⊢
        omega
  · exact absurd h (by simp)

/-- Leftmost match of the tag-block regex over the whole text: returns
(prefix before the match, attrs, content, suffix after the match), trying
each start position left to right exactly as the regex engine does. -/
def findTagBlock (tag : List Char) : List Char → Option (List Char × List Char × List Char × List Char)
  | [] => none
  | c :: t =>
    match tryTagAt tag (c :: t) with
    | some r => some ([], r.1, r.2.1, r.2.2)
    | none => (findTagBlock tag t).map fun r => (c :: r.1, r.2.1, r.2.2.1, r.2.2.2)

theorem findTagBlock_suffix_lt {tag : List Char} :
    ∀ {cs pre a co su : List Char},
      findTagBlock tag cs = some (pre, a, co, su) → su.length < cs.length := by
  intro cs
  induction cs with
  | nil => intro pre a co su h; exact absurd h (by simp [findTagBlock])
  | cons c t ih =>
    intro pre a co su h
    rcases htry : tryTagAt tag (c :: t) with _ | ⟨a', co', su'⟩
    · simp only [findTagBlock, htry] at h
      rcases hr : findTagBlock tag t with _ | ⟨p1, a1, co1, su1⟩
      · rw [hr] at h
        exact absurd h (by simp)
      · rw [hr] at h
        simp only [Option.map_some', Option.some.injEq, Prod.mk.injEq] at h
        obtain ⟨-, -, -, rfl⟩ := h
        have := ih hr
        simp only [List.length_cons]
        omega
    · simp only [findTagBlock, htry, Option.some.injEq, Prod.mk.injEq] at h
      obtain ⟨-, -, -, rfl⟩ := h
      exact tryTagAt_suffix_lt htry

set_option linter.unusedVariables false in
/-- All matches of `STYLE_GLOBAL_RE` in order: (attribute text, raw
content) pairs, resuming after each match like a sticky global regex. -/
def styleBlocks (cs : List Char) : List (List Char × List Char) :=
  match h : findTagBlock ['s', 't', 'y', 'l', 'e'] cs with
  | none => []
  | some r => (r.2.1, r.2.2.1) :: styleBlocks r.2.2.2
termination_by cs.length
decreasing_by exact findTagBlock_suffix_lt h

/-- The apostrophe character (single quote), by code point. -/
def sq : Char := Char.ofNat 39

/-- JS word characters, for the `\b` boundaries of `GLOBAL_ATTR_RE`. -/
def wordC (c : Char) : Bool := c.isAlphanum || c = '_'

/-- Worker for `hasGlobalAttr`, carrying the previous character so the
leading `\b` can be checked at every position. -/
def hasGlobalAux : Option Char → List Char → Bool
  | _, [] => false
  | prev, c :: t =>
    (ciStartsL ['g', 'l', 'o', 'b', 'a', 'l'] (c :: t) &&
      (match prev with | none => true | some p => ¬ wordC p) &&
      (match (c :: t).drop 6 with | [] => true | d :: _ => ¬ wordC d)) ||
    hasGlobalAux (some c) t

/-- Test of `GLOBAL_ATTR_RE = /\bglobal(?:\s*=\s*(?:"true"|'true'|true))?\b/i`
on a style tag's attribute text.  The optional `= true` group never alters
acceptance (its first character is never a word character, and on a failed
trailing boundary the engine backtracks to the group-less alternative), so
the test is exactly a case-insensitive word-bounded occurrence of
`global`. -/
def hasGlobalAttr (attrs : List Char) : Bool := hasGlobalAux none attrs

/-- Bare (unquoted) alternative `([^\s>]+)` of `LANG_RE`. -/
def bareLang (r3 : List Char) : Option (List Char) :=
  let v := r3.takeWhile fun c => ¬ isWS c && ¬ c = '>'
  if v.isEmpty then none else some v

/-- Quoted alternative of `LANG_RE` for the given quote character: the
opening quote, a non-empty run of non-quote characters, and the closing
quote.  Fails (so the next alternative of the alternation is tried) when
the head is not the quote, the content would be empty, or the closing
quote is missing. -/
def quotedLang (q : Char) (r3 : List Char) : Option (List Char) :=
  match r3 with
  | c :: r4 =>
    if c = q then
      let v := r4.takeWhile fun x => ¬ x = q
      if ¬ v.isEmpty && ¬ (r4.dropWhile fun x => ¬ x = q).isEmpty then some v
      else none
    else none
  | [] => none

/-- One anchored attempt of
`LANG_RE = /lang\s*=\s*(?:"([^"]+)"|'([^']+)'|([^\s>]+))/i`: the three
alternatives are tried in order, exactly as the regex alternation
backtracks — double-quoted, then single-quoted, then the bare value
(which can start at an unclosed quote character). -/
def tryLangAt (cs : List Char) : Option (List Char) :=
  if ciStartsL ['l', 'a', 'n', 'g'] cs then
    match (cs.drop 4).dropWhile isWS with
    | '=' :: r2 =>
      let r3 := r2.dropWhile isWS
      match quotedLang '"' r3 with
      | some v => some v
      | none =>
        match quotedLang sq r3 with
        | some v => some v
        | none => bareLang r3
    | _ => none
  else none

/-- First match of `LANG_RE` over the attribute text (the value of the
first group that matched), scanning start positions left to right. -/
def extractLang : List Char → Option (List Char)
  | [] => none
  | c :: t =>
    match tryLangAt (c :: t) with
    | some v => some v
    | none => extractLang t

/-- Whether a region requests the extended dialect:
`lang && lang.toLowerCase() === 'scss'`. -/
def isScssRegion (attrs : List Char) : Bool :=
  match extractLang attrs with
  | some v => v.map Char.toLower = ['s', 'c', 's', 's']
  | none => false

/-- The diagnostic comment appended to the generated module when the SCSS
compile step throws (part_004 line 205). -/
def warnStr (id : List Char) : List Char :=
  "// [sfc] warning: failed to compile SCSS for ".toList ++ id ++
    ", falling back to raw CSS. Install ".toList ++ [sq] ++ "sass".toList ++ [sq] ++
    " to enable SCSS compilation.\n".toList

/-- Output of the style stage: scoped parts, global parts and warning
comments, each in source order. -/
structure StyleOut where
  localParts : List (List Char)
  globalParts : List (List Char)
  warnings : List (List Char)
deriving DecidableEq, Repr

/-- The css a region contributes: its trimmed content, put through the
pluggable SCSS compiler when the region asks for it, falling back to the
raw text when the compiler throws. -/
def compiledOf (compile : List Char → Except Unit (List Char))
    (r : List Char × List Char) : List Char :=
  let content := trimChars r.2
  if isScssRegion r.1 then
    match compile content with
    | .ok out => out
    | .error _ => content
  else content

/-- Whether processing a region appends the diagnostic comment. -/
def compileFails (compile : List Char → Except Unit (List Char))
    (r : List Char × List Char) : Bool :=
  isScssRegion r.1 &&
    (match compile (trimChars r.2) with | .ok _ => false | .error _ => true)

/-- One iteration of the style loop (part_004 lines 183-211): skip an
empty-after-trim region, otherwise classify by the global marker, compile,
and append to the matching bucket (plus a warning on compiler failure). -/
def processRegion (compile : List Char → Except Unit (List Char)) (id : List Char)
    (acc : StyleOut) (r : List Char × List Char) : StyleOut :=
  if (trimChars r.2).isEmpty then acc
  else
    { localParts := acc.localParts ++
        (if hasGlobalAttr r.1 then [] else [compiledOf compile r]),
      globalParts := acc.globalParts ++
        (if hasGlobalAttr r.1 then [compiledOf compile r] else []),
      warnings := acc.warnings ++
        (if compileFails compile r then [warnStr id] else []) }

/-- The style loop over all regions in source order. -/
def processStylesRegions (compile : List Char → Except Unit (List Char))
    (id : List Char) (regions : List (List Char × List Char)) : StyleOut :=
  regions.foldl (processRegion compile id) ⟨[], [], []⟩

/-- Join of same-class parts: `parts.join('\n')` (part_004 lines 213-214). -/
def joinNL (parts : List (List Char)) : List Char := List.intercalate ['\n'] parts

/-- `localCss`: null when no scoped part exists, else the joined parts. -/
def localCssOf (o : StyleOut) : Option (List Char) :=
  if o.localParts.isEmpty then none else some (joinNL o.localParts)

/-- `globalCss`: null when no global part exists, else the joined parts. -/
def globalCssOf (o : StyleOut) : Option (List Char) :=
  if o.globalParts.isEmpty then none else some (joinNL o.globalParts)

/-- The style stage of `transformSFC` applied to the scan source (the
unit with the first template and script regions removed). -/
def transformStyleOutputs (compile : List Char → Except Unit (List Char))
    (id : List Char) (scanSource : List Char) : StyleOut :=
  processStylesRegions compile id (styleBlocks scanSource)

/-- Specification-level scoped list: the trimmed contents of the
non-empty regions without the global marker, in source order. -/
def specScopedList (regions : List (List Char × List Char)) : List (List Char) :=
  regions.filterMap fun r =>
    if (trimChars r.2).isEmpty then none
    else if hasGlobalAttr r.1 then none else some (trimChars r.2)

/-- Specification-level global list: the trimmed contents of the
non-empty regions with the global marker, in source order. -/
def specGlobalList (regions : List (List Char × List Char)) : List (List Char) :=
  regions.filterMap fun r =>
    if (trimChars r.2).isEmpty then none
    else if hasGlobalAttr r.1 then some (trimChars r.2) else none

/-- Spec-side scoped css: concatenation of same-class regions in source
order, null when none exist (follows the specification's words). -/
def specScopedCss (regions : List (List Char × List Char)) : Option (List Char) :=
  if (specScopedList regions).isEmpty then none else some (joinNL (specScopedList regions))

/-- Spec-side global css, analogously. -/
def specGlobalCss (regions : List (List Char × List Char)) : Option (List Char) :=
  if (specGlobalList regions).isEmpty then none else some (joinNL (specGlobalList regions))

theorem processStylesRegions_parts (compile : List Char → Except Unit (List Char))
    (id : List Char) (regions : List (List Char × List Char)) :
    ∀ acc : StyleOut,
      (regions.foldl (processRegion compile id) acc).localParts =
        acc.localParts ++ (regions.filterMap fun r =>
          if (trimChars r.2).isEmpty then none
          else if hasGlobalAttr r.1 then none else some (compiledOf compile r)) ∧
      (regions.foldl (processRegion compile id) acc).globalParts =
        acc.globalParts ++ (regions.filterMap fun r =>
          if (trimChars r.2).isEmpty then none
          else if hasGlobalAttr r.1 then some (compiledOf compile r) else none) ∧
      (regions.foldl (processRegion compile id) acc).warnings =
        acc.warnings ++ (regions.filterMap fun r =>
          if (trimChars r.2).isEmpty then none
          else if compileFails compile r then some (warnStr id) else none) := by
  induction regions with
  | nil => intro acc; simp
  | cons r t ih =>
    intro acc
    obtain ⟨ih1, ih2, ih3⟩ := ih (processRegion compile id acc r)
    rw [List.foldl_cons]
    refine ⟨?_, ?_, ?_⟩
    · rw [ih1]
      by_cases he : (trimChars r.2).isEmpty = true
      · have he' : trimChars r.2 = [] := by simpa using he
        simp [processRegion, he, he', List.filterMap_cons]
      · have he' : ¬ trimChars r.2 = [] := by simpa using he
        by_cases hg : hasGlobalAttr r.1 = true
        · simp [processRegion, he, he', hg, List.filterMap_cons]
        · simp [processRegion, he, he', hg, List.filterMap_cons]
    · rw [ih2]
      by_cases he : (trimChars r.2).isEmpty = true
      · have he' : trimChars r.2 = [] := by simpa using he
        simp [processRegion, he, he', List.filterMap_cons]
      · have he' : ¬ trimChars r.2 = [] := by simpa using he
        by_cases hg : hasGlobalAttr r.1 = true
        · simp [processRegion, he, he', hg, List.filterMap_cons]
        · simp [processRegion, he, he', hg, List.filterMap_cons]
    · rw [ih3]
      by_cases he : (trimChars r.2).isEmpty = true
      · have he' : trimChars r.2 = [] := by simpa using he
        simp [processRegion, he, he', List.filterMap_cons]
      · have he' : ¬ trimChars r.2 = [] := by simpa using he
        by_cases hw : compileFails compile r = true
        · simp [processRegion, he, he', hw, List.filterMap_cons]
        · simp [processRegion, he, he', hw, List.filterMap_cons]

theorem filterMapCongr {l : List α} {f g : α → Option β} (h : ∀ x ∈ l, f x = g x) :
    l.filterMap f = l.filterMap g := by
  induction l with
  | nil => rfl
  | cons a t ih =>
    rw [List.filterMap_cons, List.filterMap_cons, h a (List.mem_cons_self ..),
      ih fun x hx => h x (List.mem_cons_of_mem _ hx)]

theorem joinNL_singleton (x : List Char) : joinNL [x] = x := by
  rw [joinNL, List.intercalate]
  simp

theorem isScssRegion_of_no_lang {attrs : List Char} (h : extractLang attrs = none) :
    isScssRegion attrs = false := by
  simp [isScssRegion, h]

/-- C4: the style partition.  With no extended-dialect attribute on any
region (so the pluggable compiler is never consulted), the loop's output
equals the specification partition: the scoped css is exactly the trimmed
contents of the non-global non-empty regions concatenated in source
order (null when none), the global css likewise for the marked regions,
and no diagnostic is emitted.  In particular a unit with exactly one
non-empty scoped and one non-empty global region yields non-null scoped
and global css each holding only its own region's content. -/
theorem C4_style_partition (compile : List Char → Except Unit (List Char))
    (id : List Char) (regions : List (List Char × List Char))
    (hplain : ∀ r ∈ regions, extractLang r.1 = none) :
    localCssOf (processStylesRegions compile id regions) = specScopedCss regions ∧
    globalCssOf (processStylesRegions compile id regions) = specGlobalCss regions ∧
    (processStylesRegions compile id regions).warnings = [] ∧
    (∀ r1 r2, regions = [r1, r2] → hasGlobalAttr r1.1 = false → hasGlobalAttr r2.1 = true →
      ¬ trimChars r1.2 = [] → ¬ trimChars r2.2 = [] →
      localCssOf (processStylesRegions compile id regions) = some (trimChars r1.2) ∧
      globalCssOf (processStylesRegions compile id regions) = some (trimChars r2.2)) := by
  obtain ⟨h1, h2, h3⟩ := processStylesRegions_parts compile id regions ⟨[], [], []⟩
  have hco : ∀ r ∈ regions, compiledOf compile r = trimChars r.2 := by
    intro r hr
    simp [compiledOf, isScssRegion_of_no_lang (hplain r hr)]
  have hcf : ∀ r ∈ regions, compileFails compile r = false := by
    intro r hr
    simp [compileFails, isScssRegion_of_no_lang (hplain r hr)]
  have hl : (processStylesRegions compile id regions).localParts = specScopedList regions := by
    rw [processStylesRegions, h1, List.nil_append, specScopedList]
    refine filterMapCongr fun r hr => ?_
    rw [hco r hr]
  have hg : (processStylesRegions compile id regions).globalParts = specGlobalList regions := by
    rw [processStylesRegions, h2, List.nil_append, specGlobalList]
    refine filterMapCongr fun r hr => ?_
    rw [hco r hr]
  have hw : (processStylesRegions compile id regions).warnings = [] := by
    rw [processStylesRegions, h3, List.nil_append]
    have : ∀ r ∈ regions,
        (if (trimChars r.2).isEmpty then none
         else if compileFails compile r then some (warnStr id) else none) =
          (none : Option (List Char)) := by
      intro r hr
      rw [hcf r hr]
      simp
    rw [filterMapCongr this]
    simp
  refine ⟨?_, ?_, hw, ?_⟩
  · rw [localCssOf, hl, specScopedCss]
  · rw [globalCssOf, hg, specGlobalCss]
  · rintro r1 r2 rfl hg1 hg2 ht1 ht2
    have hs : specScopedList [r1, r2] = [trimChars r1.2] := by
      simp [specScopedList, List.filterMap_cons, ht1, ht2, hg1, hg2]
    have hgl : specGlobalList [r1, r2] = [trimChars r2.2] := by
      simp [specGlobalList, List.filterMap_cons, ht1, ht2, hg1, hg2]
    constructor
    · rw [localCssOf, hl, hs]
      simp [joinNL_singleton]
    · rw [globalCssOf, hg, hgl]
      simp [joinNL_singleton]

/-- Witness for C4: a unit with the scoped region ` .a ` and the global
region ` .b ` (marked `global`) produces scoped css `.a` and global css
`.b`, unmixed. -/
theorem C4_style_partition_witness :
    localCssOf (processStylesRegions (fun c => Except.ok c) "x".toList
        [([], " .a ".toList), (" global".toList, " .b ".toList)]) =
      some ['.', 'a'] ∧
    globalCssOf (processStylesRegions (fun c => Except.ok c) "x".toList
        [([], " .a ".toList), (" global".toList, " .b ".toList)]) =
      some ['.', 'b'] := by
  have h := C4_style_partition (fun c => Except.ok c) "x".toList
    [([], " .a ".toList), (" global".toList, " .b ".toList)] (by decide)
  obtain ⟨-, -, -, h4⟩ := h
  have := h4 ([], " .a ".toList) (" global".toList, " .b ".toList) rfl
    (by decide) (by decide) (by decide) (by decide)
  constructor
  · rw [this.1]
    rfl
  · rw [this.2]
    rfl

/-- The always-throwing SCSS compiler. -/
def failCompile : List Char → Except Unit (List Char) := fun _ => Except.error ()

theorem compiledOf_fail (r : List Char × List Char) :
    compiledOf failCompile r = trimChars r.2 := by
  by_cases h : isScssRegion r.1 = true <;> simp [compiledOf, failCompile, h]

theorem compileFails_fail (r : List Char × List Char) :
    compileFails failCompile r = isScssRegion r.1 := by
  simp [compileFails, failCompile]

/-- C5: a throwing SCSS compile step never fails the transform — the
style stage still produces a full result in which every region
contributes its raw trimmed text (identical to the no-compilation
partition), and one diagnostic comment naming the unit is appended to
the generated module per failing region; in particular the comment is
present whenever some non-empty region requested the extended dialect. -/
theorem C5_scss_failure_fallback (id : List Char)
    (regions : List (List Char × List Char)) :
    localCssOf (processStylesRegions failCompile id regions) = specScopedCss regions ∧
    globalCssOf (processStylesRegions failCompile id regions) = specGlobalCss regions ∧
    (processStylesRegions failCompile id regions).warnings =
      (regions.filterMap fun r =>
        if (trimChars r.2).isEmpty then none
        else if isScssRegion r.1 then some (warnStr id) else none) ∧
    (∀ r ∈ regions, ¬ trimChars r.2 = [] → isScssRegion r.1 = true →
      warnStr id ∈ (processStylesRegions failCompile id regions).warnings) := by
  obtain ⟨h1, h2, h3⟩ := processStylesRegions_parts failCompile id regions ⟨[], [], []⟩
  have hl : (processStylesRegions failCompile id regions).localParts = specScopedList regions := by
    rw [processStylesRegions, h1, List.nil_append, specScopedList]
    refine filterMapCongr fun r hr => ?_
    rw [compiledOf_fail r]
  have hg : (processStylesRegions failCompile id regions).globalParts = specGlobalList regions := by
    rw [processStylesRegions, h2, List.nil_append, specGlobalList]
    refine filterMapCongr fun r hr => ?_
    rw [compiledOf_fail r]
  have hw : (processStylesRegions failCompile id regions).warnings =
      regions.filterMap fun r =>
        if (trimChars r.2).isEmpty then none
        else if isScssRegion r.1 then some (warnStr id) else none := by
    rw [processStylesRegions, h3, List.nil_append]
    refine filterMapCongr fun r hr => ?_
    rw [compileFails_fail r]
  refine ⟨?_, ?_, hw, ?_⟩
  · rw [localCssOf, hl, specScopedCss]
  · rw [globalCssOf, hg, specGlobalCss]
  · intro r hr ht hscss
    rw [hw]
    refine List.mem_filterMap.2 ⟨r, hr, ?_⟩
    simp [ht, hscss]

/-- Witness for C5: a non-empty `lang="scss"` region with a throwing
compiler still yields its raw text as scoped css and embeds exactly one
diagnostic comment; a single-quoted `lang='scss'` region is detected the
same way and also embeds the diagnostic. -/
theorem C5_scss_failure_fallback_witness :
    localCssOf (processStylesRegions failCompile "u".toList
        [(" lang=\"scss\"".toList, " .s ".toList)]) = some ['.', 's'] ∧
    warnStr "u".toList ∈ (processStylesRegions failCompile "u".toList
        [(" lang=\"scss\"".toList, " .s ".toList)]).warnings ∧
    warnStr "u".toList ∈ (processStylesRegions failCompile "u".toList
        [((" lang=".toList ++ [sq] ++ "scss".toList ++ [sq]), " .t ".toList)]).warnings := by
  obtain ⟨h1, -, -, h4⟩ := C5_scss_failure_fallback "u".toList
    [(" lang=\"scss\"".toList, " .s ".toList)]
  obtain ⟨-, -, -, h4'⟩ := C5_scss_failure_fallback "u".toList
    [((" lang=".toList ++ [sq] ++ "scss".toList ++ [sq]), " .t ".toList)]
  refine ⟨?_, ?_, ?_⟩
  · rw [h1]
    rfl
  · exact h4 (" lang=\"scss\"".toList, " .s ".toList) (by simp) (by decide) (by decide)
  · exact h4' ((" lang=".toList ++ [sq] ++ "scss".toList ++ [sq]), " .t ".toList)
      (by simp) (by decide) (by decide)

/-! ## C6 — the Annotation Extractor (src/unnamed/part_002 lines 499-731)

Two embedding levels.  Text level: the decorator-token regex
`/@([A-Za-z_$][\w$]*)(\s*\(([^)]*)\))?\s*/g` behind both the marker
replacement (line 501) and `simplePreprocess` (lines 721-724).  Tree
level: the Babel visitors of `astPreprocessDecorators` (lines 540-616)
over a statement model; `parse` and `generate` are the external Babel
boundary and stay outside the embedding. -/

/-- The regex class `[A-Za-z_$]`. -/
def identStartD (c : Char) : Bool := c.isAlpha || c = '_' || c = '$'

/-- The regex class `[\w$]`. -/
def identD (c : Char) : Bool := c.isAlphanum || c = '_' || c = '$'

/-- Whether the decorator-token regex matches anywhere: an `@` directly
followed by an `[A-Za-z_$]` character (the rest of the pattern is
nullable). -/
def hasDecTok : List Char → Bool
  | [] => false
  | [_] => false
  | c :: d :: t => (c = '@' && identStartD d) || hasDecTok (d :: t)

/-- Remainder after one decorator-token match, given the characters after
the `@` and its `[A-Za-z_$]` start character: the maximal `[\w$]*` run,
then the optional `\s*\(([^)]*)\)` group (skipped entirely when it cannot
complete, as the regex engine does), then trailing `\s*`. -/
def decTail (t : List Char) : List Char :=
  let afterIdent := t.dropWhile identD
  let ws1 := afterIdent.dropWhile isWS
  let afterParens :=
    if ws1.head? = some '(' then
      let rest := ws1.tail.dropWhile fun c => ¬ c = ')'
      if rest.head? = some ')' then rest.tail else afterIdent
    else afterIdent
  afterParens.dropWhile isWS

theorem decTail_le (t : List Char) : (decTail t).length ≤ t.length := by
  have h1 := length_dropWhile_le identD t
  have h2 := length_dropWhile_le isWS (t.dropWhile identD)
  have h3 := length_dropWhile_le isWS ((t.dropWhile identD).dropWhile isWS).tail
  have h4 := length_dropWhile_le (fun c => ¬ c = ')')
    ((t.dropWhile identD).dropWhile isWS).tail
  have h5 := length_dropWhile_le isWS
    (((t.dropWhile identD).dropWhile isWS).tail.dropWhile fun c => ¬ c = ')').tail
  have h6 : (((t.dropWhile identD).dropWhile isWS).tail.dropWhile
      fun c => ¬ c = ')').tail.length ≤
        (((t.dropWhile identD).dropWhile isWS).tail.dropWhile fun c => ¬ c = ')').length := by
    rw [List.length_tail]
    omega
  have h7 : ((t.dropWhile identD).dropWhile isWS).tail.length ≤
      ((t.dropWhile identD).dropWhile isWS).length := by
    rw [List.length_tail]
    omega
  rw [decTail]
  simp only
  split
  · split
    · have h8 := length_dropWhile_le isWS
        (((t.dropWhile identD).dropWhile isWS).tail.dropWhile fun c => ¬ c = ')').tail
      omega
    · omega
  · omega

/-- `simplePreprocess` (part_002 lines 721-724): delete every
decorator-token match, keep everything else. -/
def stripDecTok : List Char → List Char
  | [] => []
  | [c] => [c]
  | c :: d :: t =>
    if c = '@' && identStartD d then stripDecTok (decTail t)
    else c :: stripDecTok (d :: t)
termination_by cs => cs.length
decreasing_by
  · simp only [List.length_cons]
    have := decTail_le t
    omega
  · simp

theorem stripDecTok_noop : ∀ cs, hasDecTok cs = false → stripDecTok cs = cs := by
  have main : ∀ n (cs : List Char), cs.length ≤ n → hasDecTok cs = false →
      stripDecTok cs = cs := by
    intro n
    induction n with
    | zero =>
      intro cs hlen _
      have : cs = [] := by
        cases cs
        · rfl
        · simp at hlen
      subst this
      simp [stripDecTok]
    | succ n ih =>
      intro cs hlen h
      match cs with
      | [] => simp [stripDecTok]
      | [c] => simp [stripDecTok]
      | c :: d :: t =>
        simp only [hasDecTok, Bool.or_eq_false_iff] at h
        rw [stripDecTok]
        rw [if_neg (by simp [h.1])]
        have hlen2 : (d :: t).length ≤ n := by
          simp only [List.length_cons] at hlen ⊢
          omega
        rw [ih (d :: t) hlen2 h.2]
  exact fun cs => main cs.length cs le_rfl

/-- One recorded annotation: name and literal arguments. -/
structure DecM where
  type : String
  args : List String
deriving DecidableEq, Repr

/-- A method of an authored class, with its leading annotations. -/
structure MethodM where
  name : String
  decs : List DecM
deriving DecidableEq, Repr

/-- Statement-level model of the parsed behavior script, covering the
shapes the visitors of `astPreprocessDecorators` inspect.  Babel parses
`export default class { }` as a class declaration with a null id (the
declaration constructor with `none`); only a genuine class expression in
default-export position (for example `export default (class { })`)
reaches the ClassExpression visitor. -/
inductive StmtM where
  | exportDefaultClassDecl (cname : Option String) (methods : List MethodM)
  | exportDefaultClassExpr (methods : List MethodM)
  | classDecl (cname : String) (methods : List MethodM)
  | constClass (vname : String) (methods : List MethodM)
  | exportDefaultRef (vname : String)
  | protoAssignStmt (owner mname : String) (decs : List DecM)
  | plainStmt (code : String)
deriving DecidableEq, Repr

/-- Clears every method's decorator list (`el.decorators = []`). -/
def stripMethodDecs (ms : List MethodM) : List MethodM := ms.map fun m => ⟨m.name, []⟩

/-- The generated `<owner>.prototype.<method>.__sfc_decorators = [...]`
statements, one per decorated method, in method order. -/
def assignsFor (owner : String) (ms : List MethodM) : List StmtM :=
  ms.filterMap fun m =>
    if m.decs.isEmpty then none else some (.protoAssignStmt owner m.name m.decs)

/-- The visitor actions of lines 542-616: a named class declaration with
decorated methods is stripped and followed by its metadata assignments; a
nameless class declaration is skipped; a default-exported class
expression is unconditionally rewritten to
`const __SFC_CLS__ = class ...; export default __SFC_CLS__` followed by
its metadata assignments (its method decorators are not cleared);
everything else passes through. -/
def transformStmt : StmtM → List StmtM
  | .classDecl n ms =>
    if (assignsFor n ms).isEmpty then [.classDecl n ms]
    else .classDecl n (stripMethodDecs ms) :: assignsFor n ms
  | .exportDefaultClassDecl (some n) ms =>
    if (assignsFor n ms).isEmpty then [.exportDefaultClassDecl (some n) ms]
    else .exportDefaultClassDecl (some n) (stripMethodDecs ms) :: assignsFor n ms
  | .exportDefaultClassDecl none ms => [.exportDefaultClassDecl none ms]
  | .exportDefaultClassExpr ms =>
    .constClass "__SFC_CLS__" ms :: .exportDefaultRef "__SFC_CLS__" ::
      assignsFor "__SFC_CLS__" ms
  | s => [s]

/-- Whole-program pass of `astPreprocessDecorators` on a successfully
parsed tree. -/
def astTransform (p : List StmtM) : List StmtM := p.flatMap transformStmt

/-- The methods a statement owns. -/
def stmtMethods : StmtM → List MethodM
  | .exportDefaultClassDecl _ ms => ms
  | .exportDefaultClassExpr ms => ms
  | .classDecl _ ms => ms
  | .constClass _ ms => ms
  | _ => []

/-- No annotation syntax anywhere in the program. -/
def noDecsB (p : List StmtM) : Bool :=
  p.all fun s => (stmtMethods s).all fun m => m.decs.isEmpty

/-- No default-exported anonymous class expression. -/
def noAnonExprB (p : List StmtM) : Bool :=
  p.all fun s => match s with | .exportDefaultClassExpr _ => false | _ => true

/-- Whether the program contains a generated metadata assignment. -/
def hasProtoAssignB (p : List StmtM) : Bool :=
  p.any fun s => match s with | .protoAssignStmt .. => true | _ => false

theorem assignsFor_empty {ms : List MethodM} (h : ∀ m ∈ ms, m.decs.isEmpty = true)
    (owner : String) : assignsFor owner ms = [] := by
  induction ms with
  | nil => rfl
  | cons m t ih =>
    rw [assignsFor, List.filterMap_cons]
    rw [if_pos (h m (List.mem_cons_self ..))]
    exact ih fun x hx => h x (List.mem_cons_of_mem _ hx)

/-- C6 (amended): on a program with no annotation syntax the extractor
emits no metadata assignments, and the tree is returned unchanged
provided it does not default-export an anonymous class expression — that
shape is unconditionally rewritten to a named const plus re-export even
with zero annotations.  The last-resort regex strip is the identity on a
script without decorator tokens. -/
theorem C6_no_annotation_identity (p : List StmtM) :
    (noDecsB p = true → noAnonExprB p = true → astTransform p = p) ∧
    (noDecsB p = true → hasProtoAssignB p = false →
      hasProtoAssignB (astTransform p) = false) ∧
    (∀ s : List Char, hasDecTok s = false → stripDecTok s = s) := by
  refine ⟨?_, ?_, fun s => stripDecTok_noop s⟩
  · intro hnd hna
    induction p with
    | nil => rfl
    | cons s t ih =>
      simp only [noDecsB, List.all_cons, Bool.and_eq_true] at hnd
      simp only [noAnonExprB, List.all_cons, Bool.and_eq_true] at hna
      have ht : astTransform t = t := by
        have := ih (by simpa [noDecsB] using hnd.2) (by simpa [noAnonExprB] using hna.2)
        exact this
      have hms : ∀ m ∈ stmtMethods s, m.decs.isEmpty = true := by
        intro m hm
        have := hnd.1
        rw [List.all_eq_true] at this
        exact this m hm
      have hs : transformStmt s = [s] := by
        cases s with
        | exportDefaultClassDecl cname ms =>
          simp only [stmtMethods] at hms
          cases cname with
          | none => rfl
          | some n =>
            rw [transformStmt, if_pos (by rw [assignsFor_empty hms n]; rfl)]
        | exportDefaultClassExpr ms => exact absurd hna.1 (by simp)
        | classDecl n ms =>
          simp only [stmtMethods] at hms
          rw [transformStmt, if_pos (by rw [assignsFor_empty hms n]; rfl)]
        | constClass v ms => rfl
        | exportDefaultRef v => rfl
        | protoAssignStmt o m ds => rfl
        | plainStmt c => rfl
      show (s :: t).flatMap transformStmt = s :: t
      rw [List.flatMap_cons, hs]
      have ht' : t.flatMap transformStmt = t := ht
      rw [ht']
      rfl
  · intro hnd hpa
    induction p with
    | nil => rfl
    | cons s t ih =>
      simp only [noDecsB, List.all_cons, Bool.and_eq_true] at hnd
      simp only [hasProtoAssignB, List.any_cons, Bool.or_eq_false_iff] at hpa
      have hms : ∀ m ∈ stmtMethods s, m.decs.isEmpty = true := by
        intro m hm
        have := hnd.1
        rw [List.all_eq_true] at this
        exact this m hm
      have ht : hasProtoAssignB (astTransform t) = false := by
        have := ih (by simpa [noDecsB] using hnd.2)
        exact this (by simpa [hasProtoAssignB] using hpa.2)
      have hnone : ∀ u ∈ transformStmt s,
          (match u with | StmtM.protoAssignStmt .. => true | _ => false) = false := by
        intro u hu
        cases s with
        | exportDefaultClassDecl cname ms =>
          simp only [stmtMethods] at hms
          cases cname with
          | none =>
            simp only [transformStmt, List.mem_singleton] at hu
            subst hu
            rfl
          | some n =>
            rw [transformStmt, if_pos (by rw [assignsFor_empty hms n]; rfl)] at hu
            simp only [List.mem_singleton] at hu
            subst hu
            rfl
        | exportDefaultClassExpr ms =>
          simp only [stmtMethods] at hms
          rw [transformStmt, assignsFor_empty hms "__SFC_CLS__"] at hu
          rcases List.mem_cons.1 hu with rfl | hu'
          · rfl
          · rcases List.mem_cons.1 hu' with rfl | hu''
            · rfl
            · exact absurd hu'' (by simp)
        | classDecl n ms =>
          simp only [stmtMethods] at hms
          rw [transformStmt, if_pos (by rw [assignsFor_empty hms n]; rfl)] at hu
          simp only [List.mem_singleton] at hu
          subst hu
          rfl
        | constClass v ms =>
          simp only [transformStmt, List.mem_singleton] at hu
          subst hu
          rfl
        | exportDefaultRef v =>
          simp only [transformStmt, List.mem_singleton] at hu
          subst hu
          rfl
        | protoAssignStmt o m ds =>
          simp only [transformStmt, List.mem_singleton] at hu
          subst hu
          exact hpa.1
        | plainStmt c =>
          simp only [transformStmt, List.mem_singleton] at hu
          subst hu
          rfl
      show ((s :: t).flatMap transformStmt).any _ = false
      rw [List.flatMap_cons, List.any_append]
      have h1 : (transformStmt s).any
          (fun u => match u with | StmtM.protoAssignStmt .. => true | _ => false) = false := by
        rw [List.any_eq_false]
        intro u hu
        simpa using hnone u hu
      rw [h1]
      simp only [Bool.false_or]
      exact ht

/-- Witness for C6's amended statement: a named class with one
un-annotated method passes through untouched with no metadata, and a
decorator-free text is returned verbatim by the regex fallback. -/
theorem C6_no_annotation_identity_witness :
    astTransform [.classDecl "Foo" [⟨"onClick", []⟩], .plainStmt "let x = 1;"] =
      [.classDecl "Foo" [⟨"onClick", []⟩], .plainStmt "let x = 1;"] ∧
    stripDecTok "const a = 2;".toList = "const a = 2;".toList := by
  obtain ⟨h1, -, h3⟩ :=
    C6_no_annotation_identity [.classDecl "Foo" [⟨"onClick", []⟩], .plainStmt "let x = 1;"]
  exact ⟨h1 (by decide) (by decide), h3 _ (by decide)⟩

/-- Counterexample for C6 as stated: a default-exported anonymous class
expression with a single un-annotated method is rewritten — not returned
unchanged — even though the script contains no annotation syntax. -/
theorem C6_counterexample :
    noDecsB [.exportDefaultClassExpr [⟨"onClick", []⟩]] = true ∧
    astTransform [.exportDefaultClassExpr [⟨"onClick", []⟩]] ≠
      [.exportDefaultClassExpr [⟨"onClick", []⟩]] ∧
    astTransform [.exportDefaultClassExpr [⟨"onClick", []⟩]] =
      [.constClass "__SFC_CLS__" [⟨"onClick", []⟩], .exportDefaultRef "__SFC_CLS__"] := by
  refine ⟨rfl, ?_, rfl⟩
  decide

/-! ## C7 — `defineComponent` tag handling (src/unnamed/part_003)

Options path (lines 330-331, 424-433): the tag defaults to
`sfc-component` (template present) or `sfc-unknown` (otherwise) when the
options carry no usable tag, and `customElements.define` runs inside a
try whose catch only logs a warning.  Constructor path (lines 161-164):
a missing static tag throws to the caller.  The custom-element registry
is an external collaborator; modelled from the spec: a tag is accepted
only when it contains a hyphen ("tag (required, must contain a
hyphen)"), and defining an accepted tag twice is skipped by the
`customElements.get` guard. -/

/-- The two option fields consulted for tag selection (`none` covers a
missing or falsy value). -/
structure COpts where
  tag : Option String
  template : Option String
deriving DecidableEq, Repr

/-- Line 331: `opts.tag || (opts.template ? 'sfc-component' : 'sfc-unknown')`. -/
def fabricatedTag (o : COpts) : String :=
  match o.tag with
  | some t => t
  | none => match o.template with | some _ => "sfc-component" | none => "sfc-unknown"

/-- Modelled from the spec: the registry's validity rule for custom
element names is that the tag must contain a hyphen. -/
def validCustomTag (t : String) : Bool := t.toList.contains '-'

/-- What the options path of `defineComponent` did to the registry. -/
inductive DefineOutcome where
  | defined (tag : String)
  | skippedExisting (tag : String)
  | warnedInvalid (tag : String)
deriving DecidableEq, Repr

/-- Options path, lines 330-433: pick the tag (fabricating a default when
absent), skip when already defined, otherwise define; a registry
rejection is caught and only logged — `defineComponent` returns normally
in every case and never reports a failure to the caller. -/
def defineComponentOpts (reg : List String) (o : COpts) : List String × DefineOutcome :=
  let tag := fabricatedTag o
  if reg.contains tag then (reg, .skippedExisting tag)
  else if validCustomTag tag then (tag :: reg, .defined tag)
  else (reg, .warnedInvalid tag)

/-- The places the constructor path looks for a tag (line 163):
`ctor.tag || ctor.tagName || ctor.observedTag || proto.tag || proto.tagName`. -/
structure CtorInfo where
  tag : Option String
  tagName : Option String
  observedTag : Option String
  protoTag : Option String
  protoTagName : Option String
deriving DecidableEq, Repr

/-- The tag fallback chain of line 163. -/
def ctorTagOf (c : CtorInfo) : Option String :=
  c.tag <|> c.tagName <|> c.observedTag <|> c.protoTag <|> c.protoTagName

/-- Constructor path, lines 161-166: no tag anywhere throws to the
caller; otherwise the wrapped class is registered unless already
defined. -/
def defineComponentCtor (reg : List String) (c : CtorInfo) : Except String (List String) :=
  match ctorTagOf c with
  | none => .error "When passing a constructor, set static tag or tagName on it"
  | some t => if reg.contains t then .ok reg else .ok (t :: reg)

/-- C7 (amended): only the constructor path hard-fails on a missing tag.
The options path never reports a failure: a missing tag is silently
replaced by the fabricated default `sfc-component` (template present) or
`sfc-unknown` — both hyphenated, so the element is registered under the
fabricated tag whenever it is free — and an explicitly supplied
hyphen-less tag makes the registration attempt fail inside a catch that
only logs, with `defineComponent` still returning normally. -/
theorem C7_tag_failure_handling (reg : List String) (o : COpts) :
    (o.tag = none →
      (fabricatedTag o = "sfc-component" ∨ fabricatedTag o = "sfc-unknown") ∧
      (reg.contains (fabricatedTag o) = false →
        defineComponentOpts reg o = (fabricatedTag o :: reg, .defined (fabricatedTag o)))) ∧
    (∀ t, o.tag = some t → validCustomTag t = false → reg.contains t = false →
      defineComponentOpts reg o = (reg, .warnedInvalid t)) ∧
    (∀ c : CtorInfo, ctorTagOf c = none →
      defineComponentCtor reg c =
        .error "When passing a constructor, set static tag or tagName on it") := by
  refine ⟨?_, ?_, ?_⟩
  · intro htag
    have hfab : fabricatedTag o = "sfc-component" ∨ fabricatedTag o = "sfc-unknown" := by
      rcases o with ⟨tag, template⟩
      cases htag
      cases template with
      | none => exact Or.inr rfl
      | some tpl => exact Or.inl rfl
    refine ⟨hfab, fun hfree => ?_⟩
    have hvalid : validCustomTag (fabricatedTag o) = true := by
      rcases hfab with h | h <;> rw [h] <;> decide
    rw [defineComponentOpts]
    simp only [hfree, hvalid]
    rfl
  · intro t htag hinv hfree
    have hfab : fabricatedTag o = t := by
      rcases o with ⟨tag, template⟩
      cases htag
      rfl
    rw [defineComponentOpts]
    simp only [hfab, hfree, hinv]
    rfl
  · intro c hc
    rw [defineComponentCtor, hc]

/-- Witness for C7's amended statement: a tag-less options object with a
template registers under the fabricated `sfc-component`; the
non-hyphenated tag `plain` is warned about (not thrown); a tag-less
constructor errors. -/
theorem C7_tag_failure_handling_witness :
    defineComponentOpts [] ⟨none, some "<p></p>"⟩ =
      (["sfc-component"], .defined "sfc-component") ∧
    defineComponentOpts [] ⟨some "plain", none⟩ = ([], .warnedInvalid "plain") ∧
    defineComponentCtor [] ⟨none, none, none, none, none⟩ =
      .error "When passing a constructor, set static tag or tagName on it" := by
  obtain ⟨h1, h2, h3⟩ := C7_tag_failure_handling [] ⟨none, some "<p></p>"⟩
  obtain ⟨-, h2', -⟩ := C7_tag_failure_handling [] ⟨some "plain", none⟩
  refine ⟨?_, ?_, ?_⟩
  · have := (h1 rfl).2 (by decide)
    simpa using this
  · exact h2' "plain" rfl (by decide) (by decide)
  · exact h3 ⟨none, none, none, none, none⟩ rfl

/-- Counterexample for C7 as stated: registering an options object with a
missing tag is not a failure at all — the element is registered under
the fabricated default tag `sfc-component` — and an options object with
the non-hyphenated tag `plain` is swallowed into a logged warning while
the call still returns; neither is reported to the caller. -/
theorem C7_counterexample :
    defineComponentOpts [] ⟨none, some "<p></p>"⟩ =
      (["sfc-component"], .defined "sfc-component") ∧
    defineComponentOpts [] ⟨some "plain", none⟩ = ([], .warnedInvalid "plain") := by
  constructor
  · rfl
  · rfl

/-! ## C8 — connected-callback ordering and params merge
(src/unnamed/part_003)

The observable actions of one `connectedCallback` run are serialized as
an abstract step trace: the options shape (`SFCElement`, lines 352-396)
mounts, attaches styles, assigns `routeParams` / `queryParams` / merged
`params`, interpolates, then calls the authored callback (lines 372-374;
line 395 calls it a second time); the constructor shape (`Wrapped`,
lines 181-311) calls the authored `super.connectedCallback()` first
(line 183), then mounts and attaches, and defers wiring, the params
assignment (lines 297-305) and interpolation to a microtask.  The merged
object is `{ ...routeParams, ...queryParams }` (line 304/367). -/

/-- One observable action during a connection. -/
inductive RtStep where
  | userConnected
  | assignParams
  | mount
  | attach
  | wire
  | interpolate
  | observeAttrs
deriving DecidableEq, Repr

/-- Step trace of `SFCElement.connectedCallback` (options shape),
parameterized by which optional pieces the component carries.
`hasAttrCbOnly` stands for an `attributeChangedCallback` without
`observedAttributes` (the MutationObserver fallback). -/
def optsConnectedTrace (hasTemplate hasRoute hasUserCb hasAttrCbOnly : Bool) : List RtStep :=
  (if hasTemplate then [.mount] else []) ++ [.attach] ++
  (if hasRoute then [.assignParams] else []) ++ [.interpolate] ++
  (if hasUserCb then [.userConnected] else []) ++
  (if hasAttrCbOnly then [.observeAttrs] else []) ++
  (if hasUserCb then [.userConnected] else [])

/-- Step trace of `Wrapped.connectedCallback` (constructor shape): the
authored callback runs first, the deferred microtask steps (wire, params,
interpolate) run after the synchronous part. -/
def ctorConnectedTrace (hasSuperCb hasTemplate hasRoute : Bool) : List RtStep :=
  (if hasSuperCb then [.userConnected] else []) ++
  (if hasTemplate then [.mount] else []) ++ [.attach] ++ [.wire] ++
  (if hasRoute then [.assignParams] else []) ++ [.interpolate]

/-- `params = { ...routeParams, ...queryParams }`: assign route entries,
then query entries over them. -/
def mergeParams (route query : List (String × String)) : List (String × String) :=
  assocOfPairs query (assocOfPairs route [])

/-- C8 (amended): under the plain-options shape, `routeParams`,
`queryParams` and the merged `params` are populated strictly before the
authored connection callback runs; under the class shape the authored
callback runs first and the params are populated only afterwards, in a
deferred microtask.  In the merged object a query entry wins on key
conflicts and route entries survive elsewhere. -/
theorem C8_params_before_callback :
    (∀ t a : Bool,
      (optsConnectedTrace t true true a).findIdx (fun s => s == RtStep.assignParams) <
        (optsConnectedTrace t true true a).findIdx (fun s => s == RtStep.userConnected)) ∧
    (∀ t : Bool,
      (ctorConnectedTrace true t true).findIdx (fun s => s == RtStep.userConnected) <
        (ctorConnectedTrace true t true).findIdx (fun s => s == RtStep.assignParams)) ∧
    (∀ (route query : List (String × String)),
      (query.map Prod.fst).Nodup →
      ∀ q ∈ query, mapGet (mergeParams route query) q.1 = some q.2) ∧
    (∀ (route query : List (String × String)) (k : String),
      k ∉ query.map Prod.fst →
      mapGet (mergeParams route query) k = mapGet (assocOfPairs route []) k) := by
  refine ⟨by decide, by decide, ?_, ?_⟩
  · intro route query hnd q hq
    exact mapGet_assocOfPairs_mem query (assocOfPairs route []) hnd q hq
  · intro route query k hk
    exact mapGet_assocOfPairs_not_mem query (assocOfPairs route []) k hk

/-- Witness for C8's amended statement: with route `a=r1, b=r2` and query
`a=q1`, the merged params give `a=q1` (query wins) and `b=r2` (route
survives); the options trace of a full component assigns params at index
2, before the authored callback at index 4. -/
theorem C8_params_before_callback_witness :
    mapGet (mergeParams [("a", "r1"), ("b", "r2")] [("a", "q1")]) "a" = some "q1" ∧
    mapGet (mergeParams [("a", "r1"), ("b", "r2")] [("a", "q1")]) "b" = some "r2" ∧
    (optsConnectedTrace true true true false).findIdx (fun s => s == RtStep.assignParams) <
      (optsConnectedTrace true true true false).findIdx
        (fun s => s == RtStep.userConnected) := by
  obtain ⟨h1, -, h3, h4⟩ := C8_params_before_callback
  refine ⟨?_, ?_, h1 true false⟩
  · exact h3 [("a", "r1"), ("b", "r2")] [("a", "q1")] (by decide) ("a", "q1") (by decide)
  · have := h4 [("a", "r1"), ("b", "r2")] [("a", "q1")] "b" (by decide)
    rw [this]
    rfl

/-- Counterexample for C8 as stated: in the constructor (class-like)
shape with route metadata and an authored `connectedCallback`, the
authored callback body runs before `routeParams` / `queryParams` /
`params` are populated — the params assignment happens in a deferred
microtask after `super.connectedCallback()` has already returned. -/
theorem C8_counterexample :
    (ctorConnectedTrace true true true).findIdx (fun s => s == RtStep.userConnected) <
      (ctorConnectedTrace true true true).findIdx (fun s => s == RtStep.assignParams) ∧
    RtStep.userConnected ∈ ctorConnectedTrace true true true ∧
    RtStep.assignParams ∈ ctorConnectedTrace true true true := by
  decide

end SFC
